import Mathlib

/-!
Formal model of the NeMo punctuation/capitalization restoration scripts:
`examples/nlp/token_classification/punctuate_capitalize_infer.py`,
`examples/asr/char2pinyin.py` and `eval_pypinyin.py`.

Strings from the Python scripts are modelled as `List Char` where character
level reasoning is needed, and as `String` where Python operates on whole
strings.  The sliding-window segmentation, margin masking and aggregation
live in the NeMo library (outside these files) and are modelled from the
specification; the definitions concerned say so in their doc comments.
-/

namespace NeMo

/-- A window of a query's tokens, as described by the spec's data model:
start offset into the query, token count, and whether it is the first/last
segment of its query. -/
structure Segment where
  start : Nat
  len : Nat
  isFirst : Bool
  isLast : Bool
deriving DecidableEq

/-- Modelled from the spec: the Segmenter (NeMo library code outside `src/`).
Segments start at offsets `0, step, 2*step, ...`, each spanning
`[offset, offset+maxLen)` clipped to the query length `n`; generation stops
once the query is exhausted, and the final segment is right-aligned to the
query's end (it ends exactly at the last token).  A query that fits in one
window yields a single segment that is both first and last. -/
def segments (n maxLen step : Nat) : List Segment :=
  if n ≤ maxLen then
    [⟨0, n, true, true⟩]
  else
    (List.range ((n - maxLen + step - 1) / step)).map
      (fun j => ⟨j * step, min maxLen (n - j * step), j == 0, false⟩)
    ++ [⟨n - maxLen, maxLen, false, true⟩]

/-- Error raised on an invalid `(max_length, step)` combination. -/
inductive SegError where
  | configurationError
deriving DecidableEq

/-- Modelled from the spec: the checked Segmenter entry point.  It fails with
`ConfigurationError` when `max_length < 1` or `step > max_length` or
`step < 1`; the check precedes segment construction, so in the error case the
result carries no segments. -/
def segmentChecked (n maxLen step : Nat) : Except SegError (List Segment) :=
  if maxLen < 1 ∨ maxLen < step ∨ step < 1 then
    .error .configurationError
  else
    .ok (segments n maxLen step)

/-- Modelled from the spec: the margin exclusion rule of the data-model
invariants.  A segment `s` contributes to token index `i` when `s` covers `i`
and the local position `i - s.start` is not masked: positions before the left
margin are masked unless the segment is first, positions in the last
`margin` slots are masked unless the segment is last. -/
def contributes (margin : Nat) (s : Segment) (i : Nat) : Prop :=
  s.start ≤ i ∧ i < s.start + s.len ∧
    (s.isFirst = true ∨ s.start + margin ≤ i) ∧
    (s.isLast = true ∨ i + margin < s.start + s.len)

instance (margin : Nat) (s : Segment) (i : Nat) : Decidable (contributes margin s i) := by
  unfold contributes
  exact inferInstance

/-- Error raised when a token index has no contributing probability vector. -/
inductive AggError where
  | coverageError
deriving DecidableEq

/-- Elementwise product of probability vectors (the accumulator of the spec's
data model, with probabilities as exact rationals). -/
def combineVecs : List (List ℚ) → List ℚ
  | [] => []
  | [v] => v
  | v :: vs => List.zipWith (fun a b => a * b) v (combineVecs vs)

/-- Index of the first maximal entry of a vector: ties are broken towards the
smallest label index. -/
def argmaxIdx (v : List ℚ) : Nat :=
  match v with
  | [] => 0
  | x :: rest =>
    (rest.enum.foldl (fun best p => if best.2 < p.2 then (p.1 + 1, p.2) else best) (0, x)).1

/-- Modelled from the spec: the Aggregator (NeMo library code outside
`src/`).  For each token index it collects the probability vector contributed
by every unmasked covering segment, multiplies them elementwise and emits the
argmax; an index with no contributing vector is a `CoverageError`. -/
def aggregate (n margin : Nat) (sos : List (Segment × List (List ℚ))) :
    Except AggError (List Nat) :=
  (List.range n).mapM (fun i =>
    let contribs := sos.filterMap (fun so =>
      if contributes margin so.1 i then so.2.get? (i - so.1.start) else none)
    if contribs.isEmpty then Except.error AggError.coverageError
    else Except.ok (argmaxIdx (combineVecs contribs)))

/-- ASCII whitespace as recognised by Python's `str.strip()` / `str.split()`
(`punctuate_capitalize_infer.py` and `eval_pypinyin.py` operate on ASCII
text). -/
def isPySpace (c : Char) : Bool :=
  c == ' ' || c == '\t' || c == '\n' || c == '\r' || c == '\x0b' || c == '\x0c'

/-- Python `str.strip()`: drop leading and trailing whitespace. -/
def pyStrip (l : List Char) : List Char :=
  ((l.dropWhile isPySpace).reverse.dropWhile isPySpace).reverse

/-- An ASCII letter, the character class `[a-zA-Z]` used by the
`LEFT_PUNCTUATION_STRIP_PATTERN` and `RIGHT_PUNCTUATION_STRIP_PATTERN`
regexes of `punctuate_capitalize_infer.py`. -/
def isAsciiLetter (c : Char) : Bool :=
  ('a' ≤ c && c ≤ 'z') || ('A' ≤ c && c ≤ 'Z')

/-- The head of the `make_queries_contain_intact_sentences` loop body:
`LEFT_PUNCTUATION_STRIP_PATTERN.sub('', text.strip())`, i.e. strip
whitespace and then remove the leading run of non-letter characters
(the pattern `^[^a-zA-Z]+` matches at most once). -/
def stripIntact (t : List Char) : List Char :=
  (pyStrip t).dropWhile (fun c => !isAsciiLetter c)

/-- The capitalization fix of the loop body: if the first character is a
lowercase letter then, in label mode, an `'O'` label would be rewritten to
`'u'`/`'U'`; otherwise the first character is upper-cased. -/
def fixHead (saveLabels noAllUpper : Bool) (text : List Char) : List Char :=
  match text with
  | [] => []
  | c :: rest =>
    if c.isLower then
      if saveLabels then
        if c = 'O' then (if noAllUpper then 'U' else 'u') :: rest else c :: rest
      else
        c.toUpper :: rest
    else
      c :: rest

/-- `RIGHT_PUNCTUATION_STRIP_PATTERN.sub('', text)`: the pattern
`[^a-zA-Z]$` removes the final character when it is not a letter
(a single character at most, because of the `$` anchor). -/
def rightStrip (t : List Char) : List Char :=
  match t.getLast? with
  | none => t
  | some c => if isAsciiLetter c then t else t.dropLast

/-- The sentence-end fix of the loop body: when the last character is not in
`'.?!'`, strip one trailing non-letter character and append a dot. -/
def fixTail (text : List Char) : List Char :=
  match text.getLast? with
  | none => text
  | some c => if c = '.' ∨ c = '?' ∨ c = '!' then text else rightStrip text ++ ['.']

/-- The `make_queries_contain_intact_sentences` loop of `main`, modelled
step for step.  Python's `for i, text in enumerate(processed_texts)` reads
the element at index `i` of the *current* list and keeps iterating while
`i` is in range, so mutation during iteration is visible: the empty-text
branch executes `processed_texts.append('')` (it does not assign index `i`),
which grows the list; the other branch assigns `processed_texts[i]`.  `fuel`
bounds the number of iterations, `none` meaning the bound was hit. -/
def intactLoop (saveLabels noAllUpper : Bool) :
    Nat → Nat → List (List Char) → Option (List (List Char))
  | 0, _, _ => none
  | fuel + 1, i, xs =>
    if h : i < xs.length then
      if stripIntact (xs.get ⟨i, h⟩) = [] then
        intactLoop saveLabels noAllUpper fuel (i + 1) (xs ++ [[]])
      else
        intactLoop saveLabels noAllUpper fuel (i + 1)
          (xs.set i (fixTail (fixHead saveLabels noAllUpper (stripIntact (xs.get ⟨i, h⟩)))))
    else
      some xs

/-- `SPACE_DEDUP.sub(' ', text)`: collapse runs of spaces to single spaces. -/
def spaceDedup : List Char → List Char
  | [] => []
  | [c] => [c]
  | c :: c' :: rest =>
    if c = ' ' ∧ c' = ' ' then spaceDedup (c' :: rest) else c :: spaceDedup (c' :: rest)

/-- Externally visible effects of `main`: the single model invocation and
the writing of the output text file or output manifest. -/
inductive Event where
  | modelCall
  | writeText
  | writeManifest
deriving DecidableEq

/-- The configuration `main` passes around (file paths into/out of which the
texts are read/written are part of the excluded I/O glue). -/
structure MainConfig where
  maxSeqLength : Nat
  step : Nat
  margin : Nat
  batchSize : Nat
  saveLabels : Bool
  makeIntact : Bool
  noAllUpper : Bool
  fixDecimals : Bool
  outputManifest : Bool

/-- Invalid `(max_length, step, margin)` combination, per the spec's
configuration rules. -/
def configInvalid (maxLen step margin : Nat) : Bool :=
  decide (maxLen < 1 ∨ step < 1 ∨ maxLen < step ∨ maxLen < step + margin + margin)

/-- Modelled from the spec: `model.add_punctuation_capitalization` (NeMo
library code outside `src/`) validates the configuration before any model
call and raises `ConfigurationError` on an invalid combination; otherwise it
invokes the external model exactly once.  The black-box prediction is the
parameter `predict`, its error value (Python exception) the type `ε`. -/
def addPunctCap {ε : Type} (cfgErr : ε)
    (predict : List (List Char) → Except ε (List (List Char)))
    (maxLen step margin : Nat) (texts : List (List Char)) :
    List Event × Except ε (List (List Char)) :=
  if configInvalid maxLen step margin then
    ([], .error cfgErr)
  else
    match predict texts with
    | .error e => ([Event.modelCall], .error e)
    | .ok r => ([Event.modelCall], .ok r)

/-- The body of `main` after input loading: call
`add_punctuation_capitalization`, optionally run the intact-sentences loop,
optionally apply the decimal fix (`DECIMAL.sub(decimal_repl, SPACE_DEDUP.sub(' ', text))`,
whose regex-engine substitution is the parameter `decimalSub`), and only
then write the output file.  The first component records the external
effects in order; `Except.error` propagates the exception of the model call,
and `Option` is `none` when the intact-sentences loop exceeds its fuel. -/
def mainRun {ε : Type} (cfgErr : ε)
    (predict : List (List Char) → Except ε (List (List Char)))
    (decimalSub : List Char → List Char) (cfg : MainConfig)
    (texts : List (List Char)) (fuel : Nat) :
    List Event × Except ε (Option (List (List Char))) :=
  match addPunctCap cfgErr predict cfg.maxSeqLength cfg.step cfg.margin texts with
  | (evs, .error e) => (evs, .error e)
  | (evs, .ok processed) =>
    match (if cfg.makeIntact then intactLoop cfg.saveLabels cfg.noAllUpper fuel 0 processed
           else some processed) with
    | none => (evs, .ok none)
    | some ts =>
      let ts2 := if cfg.fixDecimals && !cfg.saveLabels then
          ts.map (fun t => decimalSub (spaceDedup t))
        else ts
      (evs ++ [if cfg.outputManifest then Event.writeManifest else Event.writeText],
        .ok (some ts2))

/-- The per-line manifest transform of `char2pinyin.py`, over the parsed
JSON object viewed as an ordered key/value map: the `audio_filepath` value
has every occurrence of `/NeMo` removed, the `text` value is replaced by the
space-joined pinyin conversion (`pypinyin.pinyin` is the external parameter
`pinyinF`; the script keeps `p[0]` of each returned group), and every other
pair is written back unchanged. -/
def processLine (pinyinF : String → List (List String)) (obj : List (String × String)) :
    List (String × String) :=
  obj.map (fun kv =>
    if kv.1 = "audio_filepath" then (kv.1, kv.2.replace "/NeMo" "")
    else if kv.1 = "text" then
      (kv.1, String.intercalate " " ((pinyinF kv.2).map (fun p => p.headD "")))
    else kv)

/-- Split a character list at every character satisfying `p`, keeping empty
pieces — the semantics of Python's `str.split('|')` (with
`p := (· == '|')`). -/
def splitOnP (p : Char → Bool) : List Char → List (List Char)
  | [] => [[]]
  | c :: rest =>
    match splitOnP p rest with
    | [] => [[]]
    | h :: t => if p c then [] :: h :: t else (c :: h) :: t

/-- Python's no-argument `str.split()`: split on whitespace runs, dropping
empty pieces. -/
def pySplit (l : List Char) : List (List Char) :=
  (splitOnP isPySpace l).filter (fun w => !w.isEmpty)

/-- Join pieces with a separator character (inverse of a single-character
split). -/
def joinSep (sep : Char) : List (List Char) → List Char
  | [] => []
  | [w] => w
  | w :: ws => w ++ sep :: joinSep sep ws

/-- The line parser of `eval_pypinyin.py`: `line = line.strip()`, lines that
are empty or start with `'\n'` or `'#'` are skipped, and the fields are
`line[:-1].split('|')` — the slice `[:-1]` is applied to the *already
stripped* line, so its final character is discarded before splitting. -/
def parseEvalLine (l : List Char) : Option (List (List Char)) :=
  if (pyStrip l).isEmpty || (pyStrip l).headD ' ' == '\n' || (pyStrip l).headD ' ' == '#' then
    none
  else
    some (splitOnP (fun x => x == '|') (pyStrip l).dropLast)

/-- The character class `[.,?]` of the `PUNCTUATION` regex in
`punctuate_capitalize_infer.py`. -/
def isPunctChar (c : Char) : Bool :=
  c == '.' || c == ',' || c == '?'

/-- `decimal_repl` from `punctuate_capitalize_infer.py`: on the matched
text, remove every `.`/`,`/`?` character (`PUNCTUATION.sub('', ...)`), split
on whitespace (`str.split()`), and return
`parts[0] + '.' + ''.join(parts[2:])`. -/
def decimal_repl (s : List Char) : List Char :=
  let parts := pySplit (s.filter (fun c => !isPunctChar c))
  parts.headD [] ++ '.' :: (parts.drop 2).flatten

/-! Helper lemmas. -/

lemma mul_lt_of_lt_ceilDiv (a step j : Nat) (hstep : 0 < step)
    (hj : j < (a + step - 1) / step) : j * step < a := by
  rcases Nat.eq_zero_or_pos a with ha | ha
  · subst ha
    rw [Nat.zero_add, Nat.div_eq_of_lt (by omega)] at hj
    omega
  · have h1 : (j + 1) * step ≤ a + step - 1 := (Nat.le_div_iff_mul_le hstep).mp hj
    rw [Nat.add_mul, Nat.one_mul] at h1
    omega

lemma lt_ceilDiv_of_mul_lt (a step j : Nat) (hstep : 0 < step) (h : j * step < a) :
    j < (a + step - 1) / step := by
  rw [Nat.lt_iff_add_one_le, Nat.le_div_iff_mul_le hstep, Nat.add_mul, Nat.one_mul]
  omega

lemma forall₂_map_self {α β : Type} (g : α → β) (r : α → β → Prop)
    (h : ∀ a, r a (g a)) : ∀ l : List α, List.Forall₂ r l (l.map g)
  | [] => List.Forall₂.nil
  | a :: l => List.Forall₂.cons (h a) (forall₂_map_self g r h l)

lemma splitOnP_ne_nil (p : Char → Bool) (l : List Char) : splitOnP p l ≠ [] := by
  cases l with
  | nil => simp [splitOnP]
  | cons c rest =>
    rw [splitOnP]
    cases splitOnP p rest with
    | nil => simp
    | cons h t => by_cases hc : p c <;> simp [hc]

lemma joinSep_cons_cons (sep c : Char) (h : List Char) (t : List (List Char)) :
    joinSep sep ((c :: h) :: t) = c :: joinSep sep (h :: t) := by
  cases t <;> simp [joinSep]

lemma joinSep_splitOnP (sep : Char) (l : List Char) :
    joinSep sep (splitOnP (fun c => c == sep) l) = l := by
  induction l with
  | nil => rfl
  | cons c rest ih =>
    rcases hsp : splitOnP (fun c => c == sep) rest with _ | ⟨h, t⟩
    · exact absurd hsp (splitOnP_ne_nil _ _)
    · rw [hsp] at ih
      by_cases hc : c = sep
      · rw [hc]
        have hsplit : splitOnP (fun c => c == sep) (sep :: rest) = [] :: h :: t := by
          simp [splitOnP, hsp]
        rw [hsplit]
        have hj : joinSep sep ([] :: h :: t) = sep :: joinSep sep (h :: t) := by
          simp [joinSep]
        rw [hj, ih]
      · have hsplit : splitOnP (fun c => c == sep) (c :: rest) = (c :: h) :: t := by
          simp [splitOnP, hsp, hc]
        rw [hsplit, joinSep_cons_cons, ih]

/-! Claim theorems. -/

/-- C6: the Segmenter fails with `ConfigurationError` exactly when
`max_length < 1` or `step > max_length` or `step < 1`, and in particular
when `step > max_length` the result is the bare error, carrying no
constructed segment. -/
theorem segmentChecked_error_iff (n maxLen step : Nat) :
    (segmentChecked n maxLen step = .error .configurationError ↔
      (maxLen < 1 ∨ maxLen < step ∨ step < 1)) ∧
    (maxLen < step → segmentChecked n maxLen step = .error .configurationError) := by
  constructor
  · constructor
    · intro h
      by_contra hc
      rw [segmentChecked, if_neg hc] at h
      exact absurd h (by simp)
    · intro h
      rw [segmentChecked, if_pos h]
  · intro h
    rw [segmentChecked, if_pos (by omega)]

/-- C7: an empty query is not an error: under a valid configuration the
Segmenter returns a single empty segment and the Aggregator returns an empty
label sequence, even though segmentation of a non-empty query never produces
a zero-length segment. -/
theorem empty_query_ok (maxLen step margin n : Nat) (sos : List (Segment × List (List ℚ)))
    (hmax : 1 ≤ maxLen) (hstep1 : 1 ≤ step) (hstep2 : step ≤ maxLen) (hn : 1 ≤ n) :
    segmentChecked 0 maxLen step = .ok [⟨0, 0, true, true⟩] ∧
    aggregate 0 margin sos = .ok [] ∧
    ∀ s ∈ segments n maxLen step, 1 ≤ s.len := by
  refine ⟨?_, ?_, ?_⟩
  · rw [segmentChecked, if_neg (by omega), segments, if_pos (Nat.zero_le _)]
  · rfl
  · intro s hs
    rw [segments] at hs
    by_cases hnm : n ≤ maxLen
    · rw [if_pos hnm] at hs
      simp only [List.mem_singleton] at hs
      subst hs
      exact hn
    · rw [if_neg hnm] at hs
      rcases List.mem_append.mp hs with hs | hs
      · rcases List.mem_map.mp hs with ⟨j, hj, rfl⟩
        have hlt := mul_lt_of_lt_ceilDiv (n - maxLen) step j hstep1 (List.mem_range.mp hj)
        exact le_min hmax (by omega)
      · simp only [List.mem_singleton] at hs
        subst hs
        exact hmax

/-- C7 witness at `maxLen = 3`, `step = 2`, `margin = 1`, `n = 5`. -/
theorem empty_query_ok_witness :
    1 ≤ 3 ∧ 1 ≤ 2 ∧ 2 ≤ 3 ∧ 1 ≤ 5 ∧
    (segmentChecked 0 3 2 = .ok [⟨0, 0, true, true⟩] ∧
      aggregate 0 1 ([] : List (Segment × List (List ℚ))) = .ok [] ∧
      ∀ s ∈ segments 5 3 2, 1 ≤ s.len) :=
  ⟨by decide, by decide, by decide, by decide,
    empty_query_ok 3 2 1 5 [] (by decide) (by decide) (by decide) (by decide)⟩

/-- C8: the per-line transform of `char2pinyin.py` preserves the keys and
their order; every pair whose key is neither `audio_filepath` nor `text` is
unchanged; the `audio_filepath` value has every occurrence of `/NeMo`
removed; the `text` value becomes the space-joined pinyin conversion. -/
theorem processLine_frame (pinyinF : String → List (List String))
    (obj : List (String × String)) :
    (processLine pinyinF obj).map Prod.fst = obj.map Prod.fst ∧
    List.Forall₂ (fun kv kv' : String × String =>
        (kv.1 ≠ "audio_filepath" → kv.1 ≠ "text" → kv' = kv) ∧
        (kv.1 = "audio_filepath" → kv' = (kv.1, kv.2.replace "/NeMo" "")) ∧
        (kv.1 = "text" →
          kv' = (kv.1, String.intercalate " " ((pinyinF kv.2).map (fun p => p.headD "")))))
      obj (processLine pinyinF obj) := by
  constructor
  · rw [processLine, List.map_map]
    apply List.map_congr_left
    intro kv _
    by_cases h1 : kv.1 = "audio_filepath" <;> by_cases h2 : kv.1 = "text" <;>
      simp [h1, h2]
  · apply forall₂_map_self
    intro kv
    by_cases h1 : kv.1 = "audio_filepath" <;> by_cases h2 : kv.1 = "text" <;>
      simp [h1, h2]

/-- C9: `eval_pypinyin.py` splits `line[:-1]` on `'|'` after the line has
already been stripped, so the extracted fields, joined back with `'|'`,
reconstruct the stripped line with its final character missing — a stripped
line ending in a non-whitespace character loses that character from its
final field. -/
theorem parseEvalLine_drops_last_char (l : List Char) (fields : List (List Char))
    (h : parseEvalLine l = some fields) :
    joinSep '|' fields = (pyStrip l).dropLast := by
  rw [parseEvalLine] at h
  by_cases hc : ((pyStrip l).isEmpty || (pyStrip l).headD ' ' == '\n' ||
      (pyStrip l).headD ' ' == '#') = true
  · rw [if_pos hc] at h
    exact absurd h (by simp)
  · rw [if_neg hc] at h
    have hf : splitOnP (fun x => x == '|') (pyStrip l).dropLast = fields :=
      Option.some.inj h
    rw [← hf]
    exact joinSep_splitOnP '|' _

/-- C9 witness: the stripped line `a|b|cd` parses to fields `a`, `b`, `c` —
the trailing `d` is discarded. -/
theorem parseEvalLine_drops_last_char_witness :
    parseEvalLine ['a', '|', 'b', '|', 'c', 'd'] = some [['a'], ['b'], ['c']] ∧
    joinSep '|' [['a'], ['b'], ['c']] = (pyStrip ['a', '|', 'b', '|', 'c', 'd']).dropLast :=
  ⟨by decide, parseEvalLine_drops_last_char _ _ (by decide)⟩

lemma intactLoop_stuck (sL nU : Bool) :
    ∀ (fuel i : Nat) (xs : List (List Char)), i < xs.length →
      (∀ j (hj : j < xs.length), i ≤ j → stripIntact (xs.get ⟨j, hj⟩) = []) →
      intactLoop sL nU fuel i xs = none := by
  intro fuel
  induction fuel with
  | zero => intro i xs _ _; rfl
  | succ fuel ih =>
    intro i xs hi hall
    have htext : stripIntact (xs.get ⟨i, hi⟩) = [] := hall i hi (Nat.le_refl i)
    rw [intactLoop, dif_pos hi, if_pos htext]
    apply ih
    · simpa using Nat.succ_lt_succ hi
    · intro j hj hij
      have hjlen : j < xs.length + 1 := by simpa using hj
      by_cases hcase : j < xs.length
      · have : (xs ++ [[]]).get ⟨j, hj⟩ = xs.get ⟨j, hcase⟩ := by
          rw [List.get_eq_getElem, List.get_eq_getElem, List.getElem_append_left hcase]
        rw [this]
        exact hall j hcase (by omega)
      · have hjeq : j = xs.length := by omega
        have : (xs ++ [[]]).get ⟨j, hj⟩ = [] := by
          rw [List.get_eq_getElem]
          subst hjeq
          rw [List.getElem_append_right (Nat.le_refl _)]
          simp
        rw [this]
        rfl

/-- C1 (code evaluated at the failing input): with
`make_queries_contain_intact_sentences` set and a processed text containing
no ASCII letter (here the single text `"."`), the post-processing loop of
`main` never terminates, however much fuel it is given: the empty-text
branch appends `''` to `processed_texts` instead of assigning index `i`, the
appended elements are themselves visited, and the list grows forever — so
the loop does not replace elements in place nor preserve the list's
length. -/
theorem intactLoop_diverges_on_letterless :
    ∀ fuel : Nat, intactLoop false false fuel 0 [['.']] = none := by
  intro fuel
  apply intactLoop_stuck
  · decide
  · intro j hj _
    have hj0 : j = 0 := by
      have : j < 1 := by simpa using hj
      omega
    subst hj0
    have hget : [['.']].get ⟨0, hj⟩ = ['.'] := rfl
    rw [hget]
    decide

/-- C3: the pipeline of `main` — the model call, the intact-sentences loop
and the regex post-processing — is a deterministic function of its inputs:
two runs with the same configuration, the same input texts and a model of
identical behaviour produce identical event traces and bit-identical
outputs. -/
theorem mainRun_deterministic {ε : Type} (cfgErr : ε)
    (predict predict' : List (List Char) → Except ε (List (List Char)))
    (decimalSub : List Char → List Char) (cfg : MainConfig)
    (texts : List (List Char)) (fuel : Nat)
    (h : predict texts = predict' texts) :
    mainRun cfgErr predict decimalSub cfg texts fuel =
      mainRun cfgErr predict' decimalSub cfg texts fuel := by
  rw [mainRun, mainRun, addPunctCap, addPunctCap, h]

/-- C3 witness: a concrete run compared with itself. -/
theorem mainRun_deterministic_witness :
    (fun ts : List (List Char) => (Except.ok ts : Except Nat (List (List Char)))) [['h', 'i']] =
      (fun ts : List (List Char) => (Except.ok ts : Except Nat (List (List Char)))) [['h', 'i']] ∧
    mainRun 0 (fun ts => Except.ok ts) id ⟨64, 8, 16, 128, false, false, false, false, false⟩
        [['h', 'i']] 3 =
      mainRun 0 (fun ts => Except.ok ts) id ⟨64, 8, 16, 128, false, false, false, false, false⟩
        [['h', 'i']] 3 :=
  ⟨rfl, mainRun_deterministic 0 _ _ id ⟨64, 8, 16, 128, false, false, false, false, false⟩
    [['h', 'i']] 3 rfl⟩

/-- C4: if the configuration is invalid, the `ConfigurationError` is raised
before any model call and `main` produces nothing at all (no events); and
whenever the `add_punctuation_capitalization` call raises — configuration
error or model failure — neither the output text file nor the output
manifest is written, because all output writing happens strictly after that
call returns. -/
theorem mainRun_no_output_on_error {ε : Type} (cfgErr : ε)
    (predict : List (List Char) → Except ε (List (List Char)))
    (decimalSub : List Char → List Char) (cfg : MainConfig)
    (texts : List (List Char)) (fuel : Nat) :
    (configInvalid cfg.maxSeqLength cfg.step cfg.margin = true →
      mainRun cfgErr predict decimalSub cfg texts fuel = ([], .error cfgErr)) ∧
    (∀ e : ε, (mainRun cfgErr predict decimalSub cfg texts fuel).2 = .error e →
      Event.writeText ∉ (mainRun cfgErr predict decimalSub cfg texts fuel).1 ∧
      Event.writeManifest ∉ (mainRun cfgErr predict decimalSub cfg texts fuel).1) := by
  constructor
  · intro hc
    rw [mainRun, addPunctCap, if_pos hc]
  · intro e
    rw [mainRun, addPunctCap]
    by_cases hc : configInvalid cfg.maxSeqLength cfg.step cfg.margin = true
    · rw [if_pos hc]
      intro _
      exact ⟨by simp, by simp⟩
    · rw [if_neg hc]
      cases hp : predict texts with
      | error err =>
        intro _
        constructor <;> simp
      | ok r =>
        cases hloop : (if cfg.makeIntact then intactLoop cfg.saveLabels cfg.noAllUpper fuel 0 r
            else some r) with
        | none => simp [hloop]
        | some ts => simp [hloop]

/-- C5: a failure of the external model call is surfaced unmodified — under
a valid configuration, if `predict` fails with exception `e`, `main` makes
exactly one model call (no retry) and propagates exactly `e`, neither
caught, wrapped nor transformed. -/
theorem mainRun_propagates_model_error {ε : Type} (cfgErr : ε)
    (predict : List (List Char) → Except ε (List (List Char)))
    (decimalSub : List Char → List Char) (cfg : MainConfig)
    (texts : List (List Char)) (fuel : Nat) (e : ε)
    (hvalid : configInvalid cfg.maxSeqLength cfg.step cfg.margin = false)
    (herr : predict texts = .error e) :
    mainRun cfgErr predict decimalSub cfg texts fuel = ([Event.modelCall], .error e) := by
  rw [mainRun, addPunctCap, if_neg (by simp [hvalid]), herr]

/-- C5 witness: a model that raises `"boom"` under the default
configuration. -/
theorem mainRun_propagates_model_error_witness :
    configInvalid 64 8 16 = false ∧
    (fun _ : List (List Char) =>
      (Except.error "boom" : Except String (List (List Char)))) [] = .error "boom" ∧
    mainRun "ConfigurationError" (fun _ => Except.error "boom") id
        ⟨64, 8, 16, 128, false, false, false, false, false⟩ [] 0 =
      ([Event.modelCall], .error "boom") :=
  ⟨by decide, rfl,
    mainRun_propagates_model_error "ConfigurationError" _ id
      ⟨64, 8, 16, 128, false, false, false, false, false⟩ [] 0 "boom" (by decide) rfl⟩

lemma contributes_mk (margin st ln : Nat) (f l : Bool) (i : Nat)
    (h1 : st ≤ i) (h2 : i < st + ln) (h3 : f = true ∨ st + margin ≤ i)
    (h4 : l = true ∨ i + margin < st + ln) :
    contributes margin ⟨st, ln, f, l⟩ i :=
  ⟨h1, h2, h3, h4⟩

/-- C2: for every query and every valid configuration with
`step ≤ max_length - left_margin - right_margin`, after margin exclusion
every token index of the query retains at least one contributing (unmasked)
segment, so the Aggregator never sees an index with zero contributing
probability vectors. -/
theorem segment_coverage (n maxLen step margin i : Nat) (hstep : 1 ≤ step)
    (hm : step + margin + margin ≤ maxLen) (hi : i < n) :
    ∃ s ∈ segments n maxLen step, contributes margin s i := by
  by_cases hn : n ≤ maxLen
  · refine ⟨⟨0, n, true, true⟩, ?_, ?_⟩
    · rw [segments, if_pos hn]
      exact List.mem_singleton.mpr rfl
    · exact contributes_mk margin 0 n true true i (Nat.zero_le _) (by omega)
        (Or.inl rfl) (Or.inl rfl)
  · push_neg at hn
    have hK1 : 1 ≤ (n - maxLen + step - 1) / step := by
      rw [Nat.le_div_iff_mul_le hstep, Nat.one_mul]
      omega
    rw [segments, if_neg (by omega)]
    by_cases h0 : i + margin < maxLen
    · refine ⟨⟨0 * step, min maxLen (n - 0 * step), 0 == 0, false⟩, ?_, ?_⟩
      · exact List.mem_append_left _ (List.mem_map.mpr ⟨0, List.mem_range.mpr hK1, rfl⟩)
      · have hmin : min maxLen (n - 0 * step) = maxLen := Nat.min_eq_left (by omega)
        rw [hmin]
        exact contributes_mk margin (0 * step) maxLen (0 == 0) false i (by omega) (by omega)
          (Or.inl rfl) (Or.inr (by omega))
    · by_cases hlast : n - maxLen + margin ≤ i
      · refine ⟨⟨n - maxLen, maxLen, false, true⟩, ?_, ?_⟩
        · exact List.mem_append_right _ (List.mem_singleton.mpr rfl)
        · exact contributes_mk margin (n - maxLen) maxLen false true i (by omega) (by omega)
            (Or.inr hlast) (Or.inl rfl)
      · obtain ⟨q, r, hqr, hr⟩ : ∃ q r, step * q + r = i - margin ∧ r < step :=
          ⟨(i - margin) / step, (i - margin) % step, Nat.div_add_mod _ _, Nat.mod_lt _ hstep⟩
        have him : margin + 1 ≤ i := by omega
        have hmul : q * step = step * q := Nat.mul_comm q step
        have ho1 : q * step + margin ≤ i := by omega
        have ho2 : i - margin < q * step + step := by omega
        have holt : q * step < n - maxLen := by omega
        have hqK : q < (n - maxLen + step - 1) / step :=
          lt_ceilDiv_of_mul_lt _ _ _ hstep holt
        refine ⟨⟨q * step, min maxLen (n - q * step), q == 0, false⟩, ?_, ?_⟩
        · exact List.mem_append_left _ (List.mem_map.mpr ⟨q, List.mem_range.mpr hqK, rfl⟩)
        · have hmin : min maxLen (n - q * step) = maxLen := Nat.min_eq_left (by omega)
          rw [hmin]
          exact contributes_mk margin (q * step) maxLen (q == 0) false i (by omega) (by omega)
            (Or.inr (by omega)) (Or.inr (by omega))

/-- C2 witness: query of 7 tokens, `maxLen = 4`, `step = 2`, `margin = 1`,
token index 3. -/
theorem segment_coverage_witness :
    1 ≤ 2 ∧ 2 + 1 + 1 ≤ 4 ∧ 3 < 7 ∧
    ∃ s ∈ segments 7 4 2, contributes 1 s 3 :=
  ⟨by decide, by decide, by decide, segment_coverage 7 4 2 1 3 (by decide) (by decide) (by decide)⟩

lemma splitOnP_word_append (p : Char → Bool) (w : List Char) (c : Char) (rest : List Char)
    (hw : ∀ x ∈ w, p x = false) (hc : p c = true) :
    splitOnP p (w ++ c :: rest) = w :: splitOnP p rest := by
  induction w with
  | nil =>
    rcases hsp : splitOnP p rest with _ | ⟨h, t⟩
    · exact absurd hsp (splitOnP_ne_nil _ _)
    · simp [splitOnP, hsp, hc]
  | cons a w' ih =>
    have ha : p a = false := hw a (List.mem_cons_self _ _)
    have ih' := ih (fun x hx => hw x (List.mem_cons_of_mem _ hx))
    simp [splitOnP, ih', ha]

lemma splitOnP_word (p : Char → Bool) (w : List Char) (hw : ∀ x ∈ w, p x = false) :
    splitOnP p w = [w] := by
  induction w with
  | nil => rfl
  | cons a w' ih =>
    have ha : p a = false := hw a (List.mem_cons_self _ _)
    have ih' := ih (fun x hx => hw x (List.mem_cons_of_mem _ hx))
    simp [splitOnP, ih', ha]

lemma pySplit_word_append (w rest : List Char)
    (hw : ∀ x ∈ w, isPySpace x = false) (hwne : w ≠ []) :
    pySplit (w ++ ' ' :: rest) = w :: pySplit rest := by
  have hne : (!w.isEmpty) = true := by
    cases w
    · exact absurd rfl hwne
    · rfl
  rw [pySplit, splitOnP_word_append isPySpace w ' ' rest hw rfl, List.filter_cons, hne]
  rfl

lemma pySplit_word (w : List Char) (hw : ∀ x ∈ w, isPySpace x = false) (hwne : w ≠ []) :
    pySplit w = [w] := by
  have hne : (!w.isEmpty) = true := by
    cases w
    · exact absurd rfl hwne
    · rfl
  rw [pySplit, splitOnP_word isPySpace w hw]
  simp [hne]

lemma pySplit_chain : ∀ ds : List Char, (∀ d ∈ ds, isPySpace d = false) →
    ∀ w : List Char, (∀ x ∈ w, isPySpace x = false) → w ≠ [] →
    pySplit (w ++ (ds.map (fun d => [' ', d])).flatten) = w :: ds.map (fun d => [d]) := by
  intro ds
  induction ds with
  | nil =>
    intro _ w hw hwne
    simpa using pySplit_word w hw hwne
  | cons d ds' ih =>
    intro hds w hw hwne
    have hd : isPySpace d = false := hds d (List.mem_cons_self _ _)
    have hds' : ∀ x ∈ ds', isPySpace x = false :=
      fun x hx => hds x (List.mem_cons_of_mem _ hx)
    have hflat : (((d :: ds').map (fun d => [' ', d])).flatten) =
        ' ' :: ([d] ++ (ds'.map (fun d => [' ', d])).flatten) := by
      simp
    rw [hflat, pySplit_word_append w _ hw hwne,
      ih hds' [d] (by intro x hx; rw [List.mem_singleton.mp hx]; exact hd) (by simp)]
    simp

lemma filter_flatten (p : Char → Bool) (L : List (List Char)) :
    L.flatten.filter p = (L.map (List.filter p)).flatten := by
  induction L with
  | nil => rfl
  | cons h t ih => simp [List.filter_append, ih]

lemma flatten_map_singleton (l : List Char) : (l.map (fun d => [d])).flatten = l := by
  induction l with
  | nil => rfl
  | cons a t ih => simp [ih]

/-- C10: on any substring of the shape matched by the `DECIMAL` pattern — a
digit run `D`, optional punctuation, a whitespace-free punctuation-free word
(the case variants of `point`), then one or more groups of optional
punctuation, a space and a digit — `decimal_repl` removes the `.`/`,`/`?`
characters, splits on whitespace and returns the first part, a literal dot,
and the remaining digits concatenated without spaces: the `point` word is
dropped entirely and replaced by a single dot. -/
theorem decimal_repl_matched (D P1 PT : List Char) (groups : List (List Char × Char))
    (hD : D ≠ []) (hDc : ∀ c ∈ D, isPySpace c = false ∧ isPunctChar c = false)
    (hP1 : ∀ c ∈ P1, isPunctChar c = true)
    (hPT : PT ≠ []) (hPTc : ∀ c ∈ PT, isPySpace c = false ∧ isPunctChar c = false)
    (hG : ∀ g ∈ groups, (∀ c ∈ g.1, isPunctChar c = true) ∧
      isPySpace g.2 = false ∧ isPunctChar g.2 = false) :
    decimal_repl (D ++ P1 ++ ' ' :: PT ++
        (groups.map (fun g => g.1 ++ ' ' :: [g.2])).flatten) =
      D ++ '.' :: groups.map Prod.snd := by
  have hfD : D.filter (fun c => !isPunctChar c) = D :=
    List.filter_eq_self.mpr (fun c hc => by simp [(hDc c hc).2])
  have hfP1 : P1.filter (fun c => !isPunctChar c) = [] :=
    List.filter_eq_nil_iff.mpr (fun c hc => by simp [hP1 c hc])
  have hfPT : PT.filter (fun c => !isPunctChar c) = PT :=
    List.filter_eq_self.mpr (fun c hc => by simp [(hPTc c hc).2])
  have hfG : ((groups.map (fun g => g.1 ++ ' ' :: [g.2])).flatten).filter
        (fun c => !isPunctChar c) =
      ((groups.map Prod.snd).map (fun d => [' ', d])).flatten := by
    rw [filter_flatten, List.map_map, List.map_map]
    congr 1
    apply List.map_congr_left
    intro g hg
    rcases hG g hg with ⟨hg1, _, hg3⟩
    show (g.1 ++ ' ' :: [g.2]).filter (fun c => !isPunctChar c) = [' ', g.2]
    have hg1f : g.1.filter (fun c => !isPunctChar c) = [] :=
      List.filter_eq_nil_iff.mpr (fun c hc => by simp [hg1 c hc])
    rw [List.filter_append, hg1f]
    simp [List.filter_cons, hg3, show isPunctChar ' ' = false from rfl]
  have hfilter : (D ++ P1 ++ ' ' :: PT ++
        (groups.map (fun g => g.1 ++ ' ' :: [g.2])).flatten).filter
        (fun c => !isPunctChar c) =
      D ++ ' ' :: (PT ++ ((groups.map Prod.snd).map (fun d => [' ', d])).flatten) := by
    simp only [List.filter_append, List.filter_cons, hfD, hfP1, hfPT, hfG]
    have hsp : (!isPunctChar ' ') = true := rfl
    rw [hsp]
    simp
  rw [decimal_repl, hfilter,
    pySplit_word_append D _ (fun c hc => (hDc c hc).1) hD,
    pySplit_chain (groups.map Prod.snd)
      (by
        intro d hd
        rcases List.mem_map.mp hd with ⟨g, hg, rfl⟩
        exact (hG g hg).2.1)
      PT (fun c hc => (hPTc c hc).1) hPT]
  have hfm := flatten_map_singleton (groups.map Prod.snd)
  simp only [List.map_map] at hfm
  simp [List.map_map, hfm]

/-- C10 witness: the match `3 point 1 4` becomes `3.14`. -/
theorem decimal_repl_matched_witness :
    (['3'] : List Char) ≠ [] ∧
    decimal_repl (['3'] ++ [] ++ ' ' :: ['p', 'o', 'i', 'n', 't'] ++
        (([([], '1'), ([], '4')] : List (List Char × Char)).map
          (fun g => g.1 ++ ' ' :: [g.2])).flatten) =
      ['3'] ++ '.' :: ([([], '1'), ([], '4')] : List (List Char × Char)).map Prod.snd :=
  ⟨by decide,
    decimal_repl_matched ['3'] [] ['p', 'o', 'i', 'n', 't'] [([], '1'), ([], '4')]
      (by decide) (by decide) (by decide) (by decide) (by decide) (by decide)⟩

end NeMo
